import Mathlib

/-!
Verification of `dalek-rangeproofs` (`src/lib.rs`).

Shallow embedding of the Back-Maxwell rangeproof core with ring size `m = 3`.

The prime-order group, the hash primitive and the CSPRNG are external
collaborators of the crate (supplied by `curve25519-dalek`, `sha2` and `rand`),
so they are modelled abstractly, exactly through the interface the source code
consumes:

* scalars are `ZMod p` for a prime `p` (residues mod the group order, with
  add/sub/neg/mul/inverse, where the inverse of `0` is `0`, as for the
  Fermat-exponentiation inverse used by dalek scalars);
* points form an additive commutative group `V` that is a `ZMod p`-module,
  with two distinguished points `G` and `H` (the basepoint-table
  multiplication `G * &s` and `s * G` are both `s • G`);
* `Hp : V → ZMod p` models `Scalar::hash_from_bytes::<Sha512>` applied to the
  canonical (injective) 32-byte compression of one point;
* `Hlist : List V → ZMod p` models building a `Sha512` accumulator, absorbing
  the compressed points of a list in order, and reducing the digest with
  `Scalar::from_hash`;
* the CSPRNG is an injected stream `rng : ℕ → ZMod p` together with a counter
  that advances by one for every call to `Scalar::random`.

A Rust `panic!` (the `n > RANGEPROOF_MAX_N` assertion, and the
`panic!("Invalid digit")` arm of `create_vartime`) is modelled as the
`Except.error` outcome; a normal return of `Option<T>` is `Except.ok`.
In `create_vartime` the unreachable invalid-digit arm of the first pass is
modelled as a pre-loop check (a panic discards every other effect of the
call, so only the resulting outcome is observable).
-/

namespace DalekRangeproofs

/-- The maximum allowed bound for the rangeproof (`src/lib.rs:248`). -/
def RANGEPROOF_MAX_N : ℕ := 41

/-- Helper for `base3_digits`: `fuel` remaining iterations of the loop
`for i in 0..41 { digits[i] = x % 3; x = x / 3 }` (`src/lib.rs:634-642`). -/
def base3_digitsAux : ℕ → ℕ → List ℕ
  | 0, _ => []
  | fuel + 1, x => x % 3 :: base3_digitsAux fuel (x / 3)

/-- `base3_digits` (`src/lib.rs:634-642`): the 41 base-3 digits of `x`,
least-significant first. -/
def base3_digits (x : ℕ) : List ℕ := base3_digitsAux 41 x

/-- The weighted digit sum `Σ l[i]·3^(j+i)`, in recursive form. -/
def wsum : ℕ → List ℕ → ℕ
  | _, [] => 0
  | j, d :: ds => d * 3 ^ j + wsum (j + 1) ds


/-- The per-digit working state of the provers: the arrays
`k, r, s_1, s_2, e_1, e_2 : Vec<Scalar>` and `R, C : Vec<DecafPoint>` of
`src/lib.rs:345-352` (resp. `502-509`), sliced at one index `i`.
All entries start as `Scalar::zero()` / `DecafPoint::identity()`. -/
structure Row (S : Type) (V : Type) where
  k : S
  r : S
  s1 : S
  s2 : S
  e1 : S
  e2 : S
  C : V
  R : V

/-- `RangeProof` (`src/lib.rs:238-243`): the anchor `e_0 : Scalar` and the three
length-`n` sequences `C : Vec<DecafPoint>`, `s_1, s_2 : Vec<Scalar>`. -/
structure RangeProof (S : Type) (V : Type) where
  e_0 : S
  C : List V
  s_1 : List S
  s_2 : List S

section Group

variable {p : ℕ} [Fact (Nat.Prime p)] {V : Type} [AddCommGroup V] [Module (ZMod p) V]
variable (G H : V) (Hp : V → ZMod p) (Hlist : List V → ZMod p)

/-- The loop of `RangeProof::verify` (`src/lib.rs:279-298`), one recursive call
per digit position, processing the triple `(C[i], s_1[i], s_2[i])`.
Returns the list of recomputed points `R^i` absorbed into the `e_0` hash
(in index order) together with the accumulated commitment `C`.
`miH` is the running point `mi_H`; `vartime::k_fold_scalar_mult(&[a, b], &[P, Q])`
is `a • P + b • Q`; the loop update is `mi_H <- mi_H + mi2_H`. -/
def verifyDigits (e_0 : ZMod p) : List (V × ZMod p × ZMod p) → V → List V × V
  | [], _ => ([], 0)
  | (Ci, s1i, s2i) :: rest, miH =>
    let mi2_H := miH + miH
    let Ci_minus_miH := Ci - miH
    let ei_1 := Hp (s1i • G + (-e_0) • Ci_minus_miH)
    let Ci_minus_2miH := Ci - mi2_H
    let ei_2 := Hp (s2i • G + (-ei_1) • Ci_minus_2miH)
    let Ri := ei_2 • Ci
    let rec_rest := verifyDigits e_0 rest (miH + mi2_H)
    (Ri :: rec_rest.1, Ci + rec_rest.2)

/-- `RangeProof::verify` (`src/lib.rs:253-307`).  `Except.error` models the
`panic!` on `n > RANGEPROOF_MAX_N`; `Except.ok none` is a rejection;
`Except.ok (some C)` returns the reconstructed commitment. -/
def verify (pf : RangeProof (ZMod p) V) (n : ℕ) : Except Unit (Option V) :=
  if RANGEPROOF_MAX_N < n then .error ()
  else if pf.C.length ≠ n then .ok none
  else if pf.s_1.length ≠ n then .ok none
  else if pf.s_2.length ≠ n then .ok none
  else
    let RsC := verifyDigits G Hp pf.e_0 (pf.C.zip (pf.s_1.zip pf.s_2)) H
    let e_0_hat := Hlist RsC.1
    if e_0_hat = pf.e_0 then .ok (some RsC.2) else .ok none

/-- One iteration of the first pass of `RangeProof::create_vartime`
(`src/lib.rs:355-392`), for digit `v`, running point `miH`, CSPRNG stream
`rng` and counter `c`.  Digits `v ≥ 3` hit the `panic!("Invalid digit")`
arm; `create_vartime` models that panic as a pre-loop check, so this step
returns an arbitrary row in that (unreachable) case. -/
def vtStep1 (rng : ℕ → ZMod p) (v : ℕ) (miH : V) (c : ℕ) : Row (ZMod p) V × ℕ :=
  let mi2_H := miH + miH
  let k : ZMod p := rng c
  if v = 0 then
    ({ k := k, r := 0, s1 := 0, s2 := 0, e1 := 0, e2 := 0, C := 0, R := k • G }, c + 1)
  else if v = 1 then
    let r : ZMod p := rng (c + 1)
    let C := r • G + miH
    let e1 := Hp (k • G)
    let s2 : ZMod p := rng (c + 2)
    let Ci_minus_mi2H := C - mi2_H
    let e2 := Hp (s2 • G + (-e1) • Ci_minus_mi2H)
    ({ k := k, r := r, s1 := 0, s2 := s2, e1 := e1, e2 := e2, C := C, R := e2 • C }, c + 3)
  else if v = 2 then
    let r : ZMod p := rng (c + 1)
    let C := r • G + mi2_H
    let e2 := Hp (k • G)
    ({ k := k, r := r, s1 := 0, s2 := 0, e1 := 0, e2 := e2, C := C, R := e2 • C }, c + 2)
  else
    ({ k := k, r := 0, s1 := 0, s2 := 0, e1 := 0, e2 := 0, C := 0, R := 0 }, c)

/-- The first pass of `RangeProof::create_vartime` over all digit positions
(`src/lib.rs:354-392`); the loop update is `mi_H <- mi2_H + mi_H`. -/
def vtPass1 (rng : ℕ → ZMod p) : List ℕ → V → ℕ → List (Row (ZMod p) V) × ℕ
  | [], _, c => ([], c)
  | v :: vs, miH, c =>
    let step := vtStep1 G Hp rng v miH c
    let rest := vtPass1 rng vs ((miH + miH) + miH) step.2
    (step.1 :: rest.1, rest.2)

/-- One iteration of the second pass of `RangeProof::create_vartime`
(`src/lib.rs:402-431`): closes the ring at one digit position using `e_0`,
starting from the row produced by the first pass.  A digit `v ≥ 3` matches
no branch of the source loop and leaves the row unchanged. -/
def vtStep2 (rng : ℕ → ZMod p) (e_0 : ZMod p) (v : ℕ) (row : Row (ZMod p) V)
    (miH : V) (c : ℕ) : Row (ZMod p) V × ℕ :=
  let mi2_H := miH + miH
  if v = 0 then
    let k_1 : ZMod p := rng c
    let e1 := Hp (k_1 • G + e_0 • miH)
    let k_2 : ZMod p := rng (c + 1)
    let e2 := Hp (k_2 • G + e1 • mi2_H)
    let e_2_inv := e2⁻¹
    let r := e_2_inv * row.k
    let C := r • G
    let s1 := k_1 + e_0 * (row.k * e_2_inv)
    let s2 := k_2 + e1 * (row.k * e_2_inv)
    ({ row with r := r, C := C, e1 := e1, e2 := e2, s1 := s1, s2 := s2 }, c + 2)
  else if v = 1 then
    ({ row with s1 := e_0 * row.r + row.k }, c)
  else if v = 2 then
    let s1 : ZMod p := rng c
    let Ci_minus_miH := row.C - miH
    let e1 := Hp (s1 • G + (-e_0) • Ci_minus_miH)
    let s2 := e1 * row.r + row.k
    ({ row with s1 := s1, e1 := e1, s2 := s2 }, c + 1)
  else (row, c)

/-- The second pass of `RangeProof::create_vartime` (`src/lib.rs:401-432`),
over the digits and the first-pass rows in lockstep; the loop update is
`mi_H <- mi_H + mi2_H`. -/
def vtPass2 (rng : ℕ → ZMod p) (e_0 : ZMod p) :
    List ℕ → List (Row (ZMod p) V) → V → ℕ → List (Row (ZMod p) V) × ℕ
  | v :: vs, row :: rows, miH, c =>
    let step := vtStep2 G Hp rng e_0 v row miH c
    let next := vtPass2 rng e_0 vs rows (miH + (miH + miH)) step.2
    (step.1 :: next.1, next.2)
  | _, _, _, c => ([], c)

/-- The successful result of `RangeProof::create_vartime`
(`src/lib.rs:345-446`): both passes over the `n` low digits starting from
`mi_H = H` and CSPRNG counter `0`, the `e_0` seal between them
(`Hash(R^0 || .. || R^{n-1})`, `src/lib.rs:394-399`), and the final
aggregation `blinding = Σ r[i]`, `commitment = Σ C[i]`
(`src/lib.rs:434-440`). -/
def vtResult (n value : ℕ) (rng : ℕ → ZMod p) : RangeProof (ZMod p) V × V × ZMod p :=
  let vs := (base3_digits value).take n
  let pass1 := vtPass1 G Hp rng vs H 0
  let e_0 := Hlist (pass1.1.map Row.R)
  let rows := (vtPass2 G Hp rng e_0 vs pass1.1 H pass1.2).1
  (⟨e_0, rows.map Row.C, rows.map Row.s1, rows.map Row.s2⟩,
   (rows.map Row.C).sum, (rows.map Row.r).sum)

/-- `RangeProof::create_vartime` (`src/lib.rs:327-447`).  `Except.error`
models the two `panic!` sites (`n > RANGEPROOF_MAX_N`, and the unreachable
`"Invalid digit"` arm, modelled as a pre-loop check); `Except.ok none` is the
out-of-range refusal; otherwise the proof, commitment and blinding of
`vtResult` are returned. -/
def create_vartime (n value : ℕ) (rng : ℕ → ZMod p) :
    Except Unit (Option (RangeProof (ZMod p) V × V × ZMod p)) :=
  if RANGEPROOF_MAX_N < n then .error ()
  else
    let v := base3_digits value
    if (v.drop n).any (fun d => d != 0) then .ok none
    else if (v.take n).any (fun d => decide (2 < d)) then .error ()
    else .ok (some (vtResult G H Hp Hlist n value rng))

/-- One iteration of the first pass of the constant-time prover
`RangeProof::create` (`src/lib.rs:514-556`).  `x.conditional_assign(&y, m)`
is modelled as `if m then y else x`; `byte_is_nonzero v` is `v ≠ 0` and
`bytes_equal_ct v k` is `v = k`.  Three scalars are drawn from the CSPRNG
in every case (`k[i]`, `maybe_ri`, `maybe_s2`). -/
def ctStep1 (rng : ℕ → ZMod p) (v : ℕ) (miH : V) (c : ℕ) : Row (ZMod p) V × ℕ :=
  let mi2_H := miH + miH
  let k : ZMod p := rng c
  let maybe_ri : ZMod p := rng (c + 1)
  let r := if v ≠ 0 then maybe_ri else 0
  let which_mi_H := if v = 2 then mi2_H else miH
  let maybe_Ci := r • G + which_mi_H
  let C := if v ≠ 0 then maybe_Ci else 0
  let maybe_ei := Hp (k • G)
  let e1 := if v = 1 then maybe_ei else 0
  let e2 := if v = 2 then maybe_ei else 0
  let maybe_s2 : ZMod p := rng (c + 2)
  let s2 := if v = 1 then maybe_s2 else 0
  let maybe_ei_b := Hp (s2 • G - e1 • (C - mi2_H))
  let e2_b := if v = 1 then maybe_ei_b else e2
  let maybe_Ri := e2_b • C
  let R := if v ≠ 0 then maybe_Ri else k • G
  ({ k := k, r := r, s1 := 0, s2 := s2, e1 := e1, e2 := e2_b, C := C, R := R }, c + 3)

/-- The first pass of `RangeProof::create` (`src/lib.rs:511-556`); the loop
update is `mi_H <- mi2_H + mi_H`. -/
def ctPass1 (rng : ℕ → ZMod p) : List ℕ → V → ℕ → List (Row (ZMod p) V) × ℕ
  | [], _, c => ([], c)
  | v :: vs, miH, c =>
    let step := ctStep1 G Hp rng v miH c
    let rest := ctPass1 rng vs ((miH + miH) + miH) step.2
    (step.1 :: rest.1, rest.2)

/-- One iteration of the second pass of `RangeProof::create`
(`src/lib.rs:567-616`).  Three scalars are drawn from the CSPRNG in every
case (`maybe_k1`, `maybe_k2`, and the random `maybe_s_1`); unused draws are
discarded by the conditional assignments. -/
def ctStep2 (rng : ℕ → ZMod p) (e_0 : ZMod p) (v : ℕ) (row : Row (ZMod p) V)
    (miH : V) (c : ℕ) : Row (ZMod p) V × ℕ :=
  let mi2_H := miH + miH
  let maybe_k1 : ZMod p := rng c
  let k_1 := if v = 0 then maybe_k1 else 0
  let maybe_e_1 := Hp (k_1 • G + e_0 • miH)
  let e1 := if v = 0 then maybe_e_1 else row.e1
  let maybe_k2 : ZMod p := rng (c + 1)
  let k_2 := if v = 0 then maybe_k2 else 0
  let maybe_e_2 := Hp (k_2 • G + e1 • mi2_H)
  let e2 := if v = 0 then maybe_e_2 else row.e2
  let e_2_inv := e2⁻¹
  let maybe_r_i := e_2_inv * row.k
  let r := if v = 0 then maybe_r_i else row.r
  let maybe_C_i := r • G
  let C := if v = 0 then maybe_C_i else row.C
  let maybe_s_1a := k_1 + e_0 * (row.k * e_2_inv)
  let s1_a := if v = 0 then maybe_s_1a else row.s1
  let maybe_s_1b := e_0 * r + row.k
  let s1_b := if v = 1 then maybe_s_1b else s1_a
  let maybe_s_1c : ZMod p := rng (c + 2)
  let s1 := if v = 2 then maybe_s_1c else s1_b
  let Ci_minus_miH := C - miH
  let maybe_e_1b := Hp (s1 • G - e_0 • Ci_minus_miH)
  let e1_b := if v = 2 then maybe_e_1b else e1
  let maybe_s_2a := k_2 + e1_b * (row.k * e_2_inv)
  let s2_a := if v = 0 then maybe_s_2a else row.s2
  let maybe_s_2b := e1_b * row.r + row.k
  let s2 := if v = 2 then maybe_s_2b else s2_a
  ({ row with r := r, C := C, e1 := e1_b, e2 := e2, s1 := s1, s2 := s2 }, c + 3)

/-- The second pass of `RangeProof::create` (`src/lib.rs:565-616`), over the
digits and the first-pass rows in lockstep; the loop update is
`mi_H <- mi_H + mi2_H`. -/
def ctPass2 (rng : ℕ → ZMod p) (e_0 : ZMod p) :
    List ℕ → List (Row (ZMod p) V) → V → ℕ → List (Row (ZMod p) V) × ℕ
  | v :: vs, row :: rows, miH, c =>
    let step := ctStep2 G Hp rng e_0 v row miH c
    let next := ctPass2 rng e_0 vs rows (miH + (miH + miH)) step.2
    (step.1 :: next.1, next.2)
  | _, _, _, c => ([], c)

/-- The successful result of `RangeProof::create` (`src/lib.rs:502-630`):
both constant-time passes over the `n` low digits starting from `mi_H = H`
and CSPRNG counter `0`, the `e_0` seal between them (`src/lib.rs:558-563`),
and the final aggregation (`src/lib.rs:618-624`). -/
def ctResult (n value : ℕ) (rng : ℕ → ZMod p) : RangeProof (ZMod p) V × V × ZMod p :=
  let vs := (base3_digits value).take n
  let pass1 := ctPass1 G Hp rng vs H 0
  let e_0 := Hlist (pass1.1.map Row.R)
  let rows := (ctPass2 G Hp rng e_0 vs pass1.1 H pass1.2).1
  (⟨e_0, rows.map Row.C, rows.map Row.s1, rows.map Row.s2⟩,
   (rows.map Row.C).sum, (rows.map Row.r).sum)

/-- `RangeProof::create` (`src/lib.rs:484-631`), the constant-time prover. -/
def create (n value : ℕ) (rng : ℕ → ZMod p) :
    Except Unit (Option (RangeProof (ZMod p) V × V × ZMod p)) :=
  if RANGEPROOF_MAX_N < n then .error ()
  else
    let v := base3_digits value
    if (v.drop n).any (fun d => d != 0) then .ok none
    else .ok (some (ctResult G H Hp Hlist n value rng))

/-- Modelled from the spec, §4.3/§4.6: the verifier's ring recomputation
written with a fresh scalar-multiplication `m_i = 3^i • H` at every index
(instead of the source's iteratively-tripled running point), for comparison
with the loop `verifyDigits`:
`e_1^i = H(s_1^i·G − e_0·(C^i − m_i))`,
`e_2^i = H(s_2^i·G − e_1^i·(C^i − 2m_i))`, `R^i = e_2^i·C^i`. -/
def specRs (e_0 : ZMod p) : ℕ → List (V × ZMod p × ZMod p) → List V
  | _, [] => []
  | i, (Ci, s1i, s2i) :: rest =>
    let m := ((3 : ZMod p) ^ i) • H
    let e1 := Hp (s1i • G - e_0 • (Ci - m))
    let e2 := Hp (s2i • G - e1 • (Ci - (m + m)))
    e2 • Ci :: specRs e_0 (i + 1) rest

/-- The sequence of values taken by the running point `mi_H` at the start of
iteration `i`, as maintained by the loops of `verify` and of the second
passes of both provers: `mi_H <- mi_H + mi2_H` with `mi2_H = mi_H + mi_H`
(`src/lib.rs:277/280/297`, `401/403/431`, `565/570/615`). -/
def miH_seq : ℕ → V
  | 0 => H
  | i + 1 => miH_seq i + (miH_seq i + miH_seq i)

/-- The same sequence as maintained by the first passes of both provers,
whose loop update is `mi_H <- mi2_H + mi_H` (`src/lib.rs:354/356/391`,
`511/517/555`). -/
def miH_seqP : ℕ → V
  | 0 => H
  | i + 1 => (miH_seqP i + miH_seqP i) + miH_seqP i

/-- A finished prover row closes its ring at base point `m`: the verifier's
recomputation of `e_1^i`, `e_2^i` and `R^i` from `(C, s_1, s_2)` returns
exactly the row's `e_1`, `e_2`, `R`. -/
def RowVerifies (e_0 : ZMod p) (row : Row (ZMod p) V) (m : V) : Prop :=
  Hp (row.s1 • G + (-e_0) • (row.C - m)) = row.e1 ∧
  Hp (row.s2 • G + (-row.e1) • (row.C - (m + m))) = row.e2 ∧
  row.e2 • row.C = row.R

end Group

/-! A small concrete model: a concrete instance of the abstract group interface, used to evaluate the
embedded functions on explicit inputs: scalars mod `5`, points in
`ZMod 5 × ZMod 5` viewed as the rank-2 module spanned by `G = (1,0)` and
`H = (0,1)`, an arbitrary point hash that never returns the zero scalar,
an arbitrary transcript hash, and an arbitrary CSPRNG stream. -/

instance : Fact (Nat.Prime 5) := ⟨by norm_num⟩

/-- Concrete scalar type: `ZMod 5`. -/
abbrev S5 := ZMod 5

/-- Concrete point type: pairs, as a `ZMod 5`-module. -/
abbrev V5 := ZMod 5 × ZMod 5

/-- Concrete basepoint `G`. -/
def exG : V5 := (1, 0)

/-- Concrete second generator `H`. -/
def exH : V5 := (0, 1)

/-- Concrete point hash; never returns `0`. -/
def exHp : V5 → S5 := fun P => if P.1 + P.2 = 0 then 1 else P.1 + P.2

/-- Concrete transcript hash. -/
def exHlist : List V5 → S5 := fun l => (l.map exHp).sum

/-- Concrete CSPRNG stream. -/
def exRng : ℕ → S5 := fun i => (i : S5) + 1

/-! Arithmetic facts about the digit decomposer. -/

lemma base3_digitsAux_length (fuel x : ℕ) :
    (base3_digitsAux fuel x).length = fuel := by
  induction fuel generalizing x with
  | zero => rfl
  | succ f ih => simp [base3_digitsAux, ih]

lemma base3_digits_length (x : ℕ) : (base3_digits x).length = 41 :=
  base3_digitsAux_length 41 x

lemma base3_digitsAux_getD (fuel i x : ℕ) (h : i < fuel) :
    (base3_digitsAux fuel x).getD i 0 = x / 3 ^ i % 3 := by
  induction fuel generalizing i x with
  | zero => omega
  | succ f ih =>
    cases i with
    | zero => simp [base3_digitsAux]
    | succ i =>
      have hif : i < f := by omega
      simp only [base3_digitsAux, List.getD_cons_succ, ih i (x / 3) hif]
      rw [Nat.div_div_eq_div_mul, ← pow_succ']

lemma base3_digits_getD (i x : ℕ) (h : i < 41) :
    (base3_digits x).getD i 0 = x / 3 ^ i % 3 :=
  base3_digitsAux_getD 41 i x h

lemma mem_base3_digitsAux {d : ℕ} (fuel x : ℕ) :
    d ∈ base3_digitsAux fuel x ↔ ∃ i < fuel, d = x / 3 ^ i % 3 := by
  induction fuel generalizing x with
  | zero => simp [base3_digitsAux]
  | succ f ih =>
    simp only [base3_digitsAux, List.mem_cons, ih]
    constructor
    · rintro (h | ⟨i, hi, rfl⟩)
      · exact ⟨0, by omega, by simpa using h⟩
      · refine ⟨i + 1, by omega, ?_⟩
        rw [Nat.div_div_eq_div_mul, ← pow_succ']
    · rintro ⟨i, hi, rfl⟩
      cases i with
      | zero => exact Or.inl (by simp)
      | succ i =>
        refine Or.inr ⟨i, by omega, ?_⟩
        rw [Nat.div_div_eq_div_mul, ← pow_succ']

lemma base3_digitsAux_lt_three {d : ℕ} {fuel x : ℕ}
    (h : d ∈ base3_digitsAux fuel x) : d < 3 := by
  obtain ⟨i, -, rfl⟩ := (mem_base3_digitsAux fuel x).1 h
  exact Nat.mod_lt _ (by omega)

lemma base3_digits_lt_three {d x : ℕ} (h : d ∈ base3_digits x) : d < 3 :=
  base3_digitsAux_lt_three h

/-- One step of the base-3 mod recurrence:
`x % 3^(f+1) = x % 3 + 3 * (x / 3 % 3^f)`. -/
lemma mod_pow3_step (x f : ℕ) : x % 3 ^ (f + 1) = x % 3 + 3 * (x / 3 % 3 ^ f) := by
  have h3 : (3 : ℕ) ^ (f + 1) = 3 * 3 ^ f := by ring
  have hpos : 0 < (3 : ℕ) ^ f := pow_pos (by omega) f
  have hq : x / 3 % 3 ^ f < 3 ^ f := Nat.mod_lt _ hpos
  have hr : x % 3 < 3 := Nat.mod_lt _ (by omega)
  conv_lhs => rw [← Nat.div_add_mod x 3, h3]
  rw [Nat.add_mod, Nat.mul_mod_mul_left, Nat.mod_eq_of_lt (a := x % 3) (by omega),
    Nat.mod_eq_of_lt (by omega), add_comm]

lemma wsum_base3_digitsAux (fuel x j : ℕ) :
    wsum j (base3_digitsAux fuel x) = x % 3 ^ fuel * 3 ^ j := by
  induction fuel generalizing x j with
  | zero => simp [base3_digitsAux, wsum, Nat.mod_one]
  | succ f ih =>
    simp only [base3_digitsAux, wsum, ih (x / 3) (j + 1)]
    rw [mod_pow3_step]
    ring

lemma wsum_base3_digits (x : ℕ) (h : x < 2 ^ 64) : wsum 0 (base3_digits x) = x := by
  have h41 : (2 : ℕ) ^ 64 < 3 ^ 41 := by norm_num
  have := wsum_base3_digitsAux 41 x 0
  rw [Nat.mod_eq_of_lt (by omega)] at this
  simpa using this

lemma wsum_append (l₁ l₂ : List ℕ) (j : ℕ) :
    wsum j (l₁ ++ l₂) = wsum j l₁ + wsum (j + l₁.length) l₂ := by
  induction l₁ generalizing j with
  | nil => simp [wsum]
  | cons d ds ih =>
    simp only [List.cons_append, List.append_eq, wsum, ih (j + 1), List.length_cons]
    rw [show j + 1 + ds.length = j + (ds.length + 1) by omega, add_assoc]

lemma wsum_eq_zero {l : List ℕ} {j : ℕ} (h : ∀ d ∈ l, d = 0) : wsum j l = 0 := by
  induction l generalizing j with
  | nil => rfl
  | cons d ds ih =>
    simp only [wsum, h d (List.mem_cons_self d ds),
      ih fun d hd => h d (List.mem_cons_of_mem _ hd)]
    simp

lemma wsum_eq_sum_range (l : List ℕ) (j : ℕ) :
    wsum j l = ∑ i ∈ Finset.range l.length, l.getD i 0 * 3 ^ (j + i) := by
  induction l generalizing j with
  | nil => simp [wsum]
  | cons d ds ih =>
    rw [List.length_cons, Finset.sum_range_succ']
    simp only [List.getD_cons_succ, List.getD_cons_zero, wsum]
    rw [ih (j + 1), add_comm]
    congr 1
    exact Finset.sum_congr rfl fun i _ => by rw [show j + 1 + i = j + (i + 1) by omega]

lemma take_any_gt2_eq_false (value n : ℕ) :
    ((base3_digits value).take n).any (fun d => decide (2 < d)) = false := by
  rw [List.any_eq_false]
  intro d hd
  have h3 := base3_digits_lt_three (List.mem_of_mem_take hd)
  simp only [decide_eq_true_eq]
  omega

lemma base3_digits_take_lt_three {value n d : ℕ}
    (hd : d ∈ (base3_digits value).take n) : d < 3 :=
  base3_digits_lt_three (List.mem_of_mem_take hd)

lemma base3_digitsAux_drop (n : ℕ) :
    ∀ (fuel x : ℕ), n ≤ fuel →
      (base3_digitsAux fuel x).drop n = base3_digitsAux (fuel - n) (x / 3 ^ n) := by
  induction n with
  | zero => intro fuel x _; simp
  | succ n ih =>
    intro fuel x h
    cases fuel with
    | zero => omega
    | succ f =>
      simp only [base3_digitsAux, List.drop_succ_cons]
      rw [ih f (x / 3) (by omega)]
      congr 1
      · omega
      · rw [Nat.div_div_eq_div_mul, ← pow_succ']

lemma base3_digitsAux_zero_input (fuel : ℕ) :
    base3_digitsAux fuel 0 = List.replicate fuel 0 := by
  induction fuel with
  | zero => rfl
  | succ f ih => simp [base3_digitsAux, ih, List.replicate_succ]

/-- An in-range value passes the out-of-range check of both provers. -/
lemma drop_any_ne_eq_false {value n : ℕ} (hn : n ≤ 41) (hv : value < 3 ^ n) :
    ((base3_digits value).drop n).any (fun d => d != 0) = false := by
  rw [base3_digits, base3_digitsAux_drop n 41 value hn, Nat.div_eq_of_lt hv,
    base3_digitsAux_zero_input]
  rw [List.any_eq_false]
  intro d hd
  rw [List.eq_of_mem_replicate hd]
  simp

/-- A u64 value that passes the out-of-range check is `< 3^n`. -/
lemma lt_of_drop_any_ne_eq_false {value n : ℕ} (hn : n ≤ 41) (h64 : value < 2 ^ 64)
    (h : ((base3_digits value).drop n).any (fun d => d != 0) = false) :
    value < 3 ^ n := by
  rw [base3_digits, base3_digitsAux_drop n 41 value hn] at h
  have hz : ∀ d ∈ base3_digitsAux (41 - n) (value / 3 ^ n), d = 0 := by
    rw [List.any_eq_false] at h
    intro d hd
    have := h d hd
    simpa using this
  have hw := wsum_base3_digitsAux (41 - n) (value / 3 ^ n) 0
  rw [wsum_eq_zero hz] at hw
  have hlt : value / 3 ^ n < 3 ^ (41 - n) := by
    apply Nat.div_lt_of_lt_mul
    have hpw : (3 : ℕ) ^ n * 3 ^ (41 - n) = 3 ^ 41 := by
      rw [← pow_add]
      congr 1
      omega
    have h41 : (2 : ℕ) ^ 64 < 3 ^ 41 := by norm_num
    omega
  rw [Nat.mod_eq_of_lt hlt, pow_zero, mul_one] at hw
  have hdiv : value / 3 ^ n = 0 := hw.symm
  have hpos : 0 < (3 : ℕ) ^ n := pow_pos (by omega) n
  exact (Nat.div_eq_zero_iff hpos).1 hdiv

/-- All digits dropped above `n` being zero, the weighted sum of the `n` low
digits recovers the whole weighted sum. -/
lemma wsum_take_eq {value n : ℕ}
    (hzero : ∀ d ∈ (base3_digits value).drop n, d = 0) :
    wsum 0 ((base3_digits value).take n) = wsum 0 (base3_digits value) := by
  conv_rhs => rw [← List.take_append_drop n (base3_digits value)]
  rw [wsum_append, wsum_eq_zero hzero, add_zero]

/-! Lemmas about the group-level loops. -/

section GroupLemmas

variable {p : ℕ} [Fact (Nat.Prime p)] {V : Type} [AddCommGroup V] [Module (ZMod p) V]
variable (G H : V) (Hp : V → ZMod p) (Hlist : List V → ZMod p)

lemma three_smul_eq (x : V) : (3 : ZMod p) • x = x + (x + x) := by
  rw [show (3 : ZMod p) = 1 + 1 + 1 by norm_num, add_smul, add_smul, one_smul, add_assoc]

lemma pow_triple (j : ℕ) (x : V) :
    ((3 : ZMod p) ^ (j + 1)) • x
      = ((3 : ZMod p) ^ j) • x + (((3 : ZMod p) ^ j) • x + ((3 : ZMod p) ^ j) • x) := by
  rw [pow_succ, mul_comm, mul_smul, three_smul_eq]

lemma pow_tripleP (j : ℕ) (x : V) :
    ((3 : ZMod p) ^ (j + 1)) • x
      = (((3 : ZMod p) ^ j) • x + ((3 : ZMod p) ^ j) • x) + ((3 : ZMod p) ^ j) • x := by
  rw [pow_triple]
  abel

lemma verifyDigits_fst_eq_specRs (e_0 : ZMod p) :
    ∀ (tys : List (V × ZMod p × ZMod p)) (j : ℕ),
      (verifyDigits G Hp e_0 tys (((3 : ZMod p) ^ j) • H)).1 = specRs G H Hp e_0 j tys := by
  intro tys
  induction tys with
  | nil => intro j; rfl
  | cons t rest ih =>
    intro j
    obtain ⟨Ci, s1i, s2i⟩ := t
    simp only [verifyDigits, specRs, neg_smul, ← sub_eq_add_neg]
    rw [← pow_triple j H, ih (j + 1)]

/-- The second vartime pass leaves `R` unchanged. -/
lemma vtRow_R_eq (rng : ℕ → ZMod p) (e_0 : ZMod p) (v : ℕ) (hv : v < 3)
    (m : V) (c c' : ℕ) :
    (vtStep2 G Hp rng e_0 v (vtStep1 G Hp rng v m c).1 m c').1.R
      = (vtStep1 G Hp rng v m c).1.R := by
  interval_cases v <;> simp [vtStep1, vtStep2]

/-- After both vartime passes, the commitment of a digit row is the Pedersen
commitment `r • G + v • m` to the digit. -/
lemma vtRow_C_eq (rng : ℕ → ZMod p) (e_0 : ZMod p) (v : ℕ) (hv : v < 3)
    (m : V) (c c' : ℕ) :
    (vtStep2 G Hp rng e_0 v (vtStep1 G Hp rng v m c).1 m c').1.C
      = (vtStep2 G Hp rng e_0 v (vtStep1 G Hp rng v m c).1 m c').1.r • G
        + ((v : ZMod p)) • m := by
  interval_cases v
  · simp [vtStep1, vtStep2]
  · simp [vtStep1, vtStep2]
  · simp [vtStep1, vtStep2, two_smul]

/-- After both vartime passes, a digit row closes its ring: the verifier's
recomputation returns the row's own `e_1`, `e_2`, `R`.  The hypothesis that
`Hp` is never zero discharges the `e_2` inversion of the `v = 0` arm. -/
lemma vtRow_verifies (rng : ℕ → ZMod p) (e_0 : ZMod p) (hHp : ∀ P : V, Hp P ≠ 0)
    (v : ℕ) (hv : v < 3) (m : V) (c c' : ℕ) :
    RowVerifies G Hp e_0 (vtStep2 G Hp rng e_0 v (vtStep1 G Hp rng v m c).1 m c').1 m := by
  interval_cases v <;>
    · simp only [vtStep1, vtStep2, RowVerifies]
      norm_num
      repeat' apply And.intro
      all_goals
        first
          | rfl
          | exact congrArg Hp (by module)
          | rw [smul_smul, ← mul_assoc, mul_inv_cancel₀ (hHp _), one_mul]

/-- The second constant-time pass leaves `R` unchanged. -/
lemma ctRow_R_eq (rng : ℕ → ZMod p) (e_0 : ZMod p) (v : ℕ) (hv : v < 3)
    (m : V) (c c' : ℕ) :
    (ctStep2 G Hp rng e_0 v (ctStep1 G Hp rng v m c).1 m c').1.R
      = (ctStep1 G Hp rng v m c).1.R := by
  interval_cases v <;> simp [ctStep1, ctStep2]

/-- After both constant-time passes, the commitment of a digit row is the
Pedersen commitment `r • G + v • m` to the digit. -/
lemma ctRow_C_eq (rng : ℕ → ZMod p) (e_0 : ZMod p) (v : ℕ) (hv : v < 3)
    (m : V) (c c' : ℕ) :
    (ctStep2 G Hp rng e_0 v (ctStep1 G Hp rng v m c).1 m c').1.C
      = (ctStep2 G Hp rng e_0 v (ctStep1 G Hp rng v m c).1 m c').1.r • G
        + ((v : ZMod p)) • m := by
  interval_cases v
  · simp [ctStep1, ctStep2]
  · simp [ctStep1, ctStep2]
  · simp [ctStep1, ctStep2, two_smul]

/-- After both constant-time passes, a digit row closes its ring. -/
lemma ctRow_verifies (rng : ℕ → ZMod p) (e_0 : ZMod p) (hHp : ∀ P : V, Hp P ≠ 0)
    (v : ℕ) (hv : v < 3) (m : V) (c c' : ℕ) :
    RowVerifies G Hp e_0 (ctStep2 G Hp rng e_0 v (ctStep1 G Hp rng v m c).1 m c').1 m := by
  interval_cases v <;>
    · simp only [ctStep1, ctStep2, RowVerifies]
      norm_num
      repeat' apply And.intro
      all_goals
        first
          | rfl
          | exact congrArg Hp (by module)
          | rw [smul_smul, ← mul_assoc, mul_inv_cancel₀ (hHp _), one_mul]

lemma zip_maps (rows : List (Row (ZMod p) V)) :
    (rows.map Row.C).zip ((rows.map Row.s1).zip (rows.map Row.s2))
      = rows.map fun t => (t.C, t.s1, t.s2) := by
  induction rows with
  | nil => rfl
  | cons r rows ih => simp [ih]

lemma verifyDigits_snd (e_0 : ZMod p) :
    ∀ (tys : List (V × ZMod p × ZMod p)) (m : V),
      (verifyDigits G Hp e_0 tys m).2 = (tys.map Prod.fst).sum := by
  intro tys
  induction tys with
  | nil => intro m; rfl
  | cons t rest ih =>
    intro m
    obtain ⟨Ci, s1i, s2i⟩ := t
    simp [verifyDigits, ih]

lemma vtPass1_length (rng : ℕ → ZMod p) :
    ∀ (vs : List ℕ) (m : V) (c : ℕ), (vtPass1 G Hp rng vs m c).1.length = vs.length := by
  intro vs
  induction vs with
  | nil => intro m c; rfl
  | cons v vs ih => intro m c; simp [vtPass1, ih]

lemma vtPass2_length (rng : ℕ → ZMod p) (e_0 : ZMod p) :
    ∀ (vs : List ℕ) (rows : List (Row (ZMod p) V)) (m : V) (c : ℕ),
      (vtPass2 G Hp rng e_0 vs rows m c).1.length = min vs.length rows.length := by
  intro vs
  induction vs with
  | nil => intro rows m c; simp [vtPass2]
  | cons v vs ih =>
    intro rows m c
    cases rows with
    | nil => simp [vtPass2]
    | cons row rows => simp [vtPass2, ih]; omega

lemma ctPass1_length (rng : ℕ → ZMod p) :
    ∀ (vs : List ℕ) (m : V) (c : ℕ), (ctPass1 G Hp rng vs m c).1.length = vs.length := by
  intro vs
  induction vs with
  | nil => intro m c; rfl
  | cons v vs ih => intro m c; simp [ctPass1, ih]

lemma ctPass2_length (rng : ℕ → ZMod p) (e_0 : ZMod p) :
    ∀ (vs : List ℕ) (rows : List (Row (ZMod p) V)) (m : V) (c : ℕ),
      (ctPass2 G Hp rng e_0 vs rows m c).1.length = min vs.length rows.length := by
  intro vs
  induction vs with
  | nil => intro rows m c; simp [ctPass2]
  | cons v vs ih =>
    intro rows m c
    cases rows with
    | nil => simp [ctPass2]
    | cons row rows => simp [ctPass2, ih]; omega

/-- Aggregation after both vartime passes: the summed commitments are a
Pedersen commitment, with blinding `Σ r[i]` and value `wsum j vs`. -/
lemma vt_rows_sum (rng : ℕ → ZMod p) (e_0 : ZMod p) :
    ∀ (vs : List ℕ) (j c c' : ℕ) (rows1 rows : List (Row (ZMod p) V)),
      (∀ d ∈ vs, d < 3) →
      rows1 = (vtPass1 G Hp rng vs (((3 : ZMod p) ^ j) • H) c).1 →
      rows = (vtPass2 G Hp rng e_0 vs rows1 (((3 : ZMod p) ^ j) • H) c').1 →
      (rows.map Row.C).sum
        = (rows.map Row.r).sum • G + ((wsum j vs : ℕ) : ZMod p) • H := by
  intro vs
  induction vs with
  | nil =>
    intro j c c' rows1 rows hd h1 h2
    subst h1
    subst h2
    simp [vtPass1, vtPass2, wsum]
  | cons v vs ih =>
    intro j c c' rows1 rows hd h1 h2
    subst h1
    subst h2
    simp only [vtPass1, vtPass2, List.map_cons, List.sum_cons]
    rw [vtRow_C_eq G Hp rng e_0 v (hd v (List.mem_cons_self _ _)) _ _ _]
    rw [← pow_tripleP j H, ← pow_triple j H]
    rw [ih (j + 1) _ _ _ _ (fun d hd' => hd d (List.mem_cons_of_mem _ hd')) rfl rfl]
    rw [wsum]
    push_cast
    module

/-- Round trip after both vartime passes: the second pass preserves the `R`
values, and the verifier loop recomputes exactly those `R` values and the
summed commitments. -/
lemma vt_rows_verify (rng : ℕ → ZMod p) (e_0 : ZMod p) (hHp : ∀ P : V, Hp P ≠ 0) :
    ∀ (vs : List ℕ) (j c c' : ℕ) (rows1 rows : List (Row (ZMod p) V)),
      (∀ d ∈ vs, d < 3) →
      rows1 = (vtPass1 G Hp rng vs (((3 : ZMod p) ^ j) • H) c).1 →
      rows = (vtPass2 G Hp rng e_0 vs rows1 (((3 : ZMod p) ^ j) • H) c').1 →
      rows.map Row.R = rows1.map Row.R ∧
      verifyDigits G Hp e_0 (rows.map fun t => (t.C, t.s1, t.s2)) (((3 : ZMod p) ^ j) • H)
        = (rows.map Row.R, (rows.map Row.C).sum) := by
  intro vs
  induction vs with
  | nil =>
    intro j c c' rows1 rows hd h1 h2
    subst h1
    subst h2
    simp [vtPass1, vtPass2, verifyDigits]
  | cons v vs ih =>
    intro j c c' rows1 rows hd h1 h2
    subst h1
    subst h2
    have hv := hd v (List.mem_cons_self _ _)
    obtain ⟨hrv1, hrv2, hrv3⟩ :=
      vtRow_verifies G Hp rng e_0 hHp v hv (((3 : ZMod p) ^ j) • H) c c'
    simp only [vtPass1, vtPass2, List.map_cons, List.sum_cons,
      verifyDigits]
    rw [← pow_tripleP j H, ← pow_triple j H]
    obtain ⟨ihR, ihV⟩ :=
      ih (j + 1) _ _ _ _ (fun d hd' => hd d (List.mem_cons_of_mem _ hd')) rfl rfl
    rw [hrv1, hrv2, hrv3, ihV]
    refine ⟨?_, rfl⟩
    rw [vtRow_R_eq G Hp rng e_0 v hv _ _ _, ihR]

/-- Aggregation after both constant-time passes. -/
lemma ct_rows_sum (rng : ℕ → ZMod p) (e_0 : ZMod p) :
    ∀ (vs : List ℕ) (j c c' : ℕ) (rows1 rows : List (Row (ZMod p) V)),
      (∀ d ∈ vs, d < 3) →
      rows1 = (ctPass1 G Hp rng vs (((3 : ZMod p) ^ j) • H) c).1 →
      rows = (ctPass2 G Hp rng e_0 vs rows1 (((3 : ZMod p) ^ j) • H) c').1 →
      (rows.map Row.C).sum
        = (rows.map Row.r).sum • G + ((wsum j vs : ℕ) : ZMod p) • H := by
  intro vs
  induction vs with
  | nil =>
    intro j c c' rows1 rows hd h1 h2
    subst h1
    subst h2
    simp [ctPass1, ctPass2, wsum]
  | cons v vs ih =>
    intro j c c' rows1 rows hd h1 h2
    subst h1
    subst h2
    simp only [ctPass1, ctPass2, List.map_cons, List.sum_cons]
    rw [ctRow_C_eq G Hp rng e_0 v (hd v (List.mem_cons_self _ _)) _ _ _]
    rw [← pow_tripleP j H, ← pow_triple j H]
    rw [ih (j + 1) _ _ _ _ (fun d hd' => hd d (List.mem_cons_of_mem _ hd')) rfl rfl]
    rw [wsum]
    push_cast
    module

/-- Round trip after both constant-time passes. -/
lemma ct_rows_verify (rng : ℕ → ZMod p) (e_0 : ZMod p) (hHp : ∀ P : V, Hp P ≠ 0) :
    ∀ (vs : List ℕ) (j c c' : ℕ) (rows1 rows : List (Row (ZMod p) V)),
      (∀ d ∈ vs, d < 3) →
      rows1 = (ctPass1 G Hp rng vs (((3 : ZMod p) ^ j) • H) c).1 →
      rows = (ctPass2 G Hp rng e_0 vs rows1 (((3 : ZMod p) ^ j) • H) c').1 →
      rows.map Row.R = rows1.map Row.R ∧
      verifyDigits G Hp e_0 (rows.map fun t => (t.C, t.s1, t.s2)) (((3 : ZMod p) ^ j) • H)
        = (rows.map Row.R, (rows.map Row.C).sum) := by
  intro vs
  induction vs with
  | nil =>
    intro j c c' rows1 rows hd h1 h2
    subst h1
    subst h2
    simp [ctPass1, ctPass2, verifyDigits]
  | cons v vs ih =>
    intro j c c' rows1 rows hd h1 h2
    subst h1
    subst h2
    have hv := hd v (List.mem_cons_self _ _)
    obtain ⟨hrv1, hrv2, hrv3⟩ :=
      ctRow_verifies G Hp rng e_0 hHp v hv (((3 : ZMod p) ^ j) • H) c c'
    simp only [ctPass1, ctPass2, List.map_cons, List.sum_cons,
      verifyDigits]
    rw [← pow_tripleP j H, ← pow_triple j H]
    obtain ⟨ihR, ihV⟩ :=
      ih (j + 1) _ _ _ _ (fun d hd' => hd d (List.mem_cons_of_mem _ hd')) rfl rfl
    rw [hrv1, hrv2, hrv3, ihV]
    refine ⟨?_, rfl⟩
    rw [ctRow_R_eq G Hp rng e_0 v hv _ _ _, ihR]

lemma ctPass1_counter (rng : ℕ → ZMod p) :
    ∀ (vs : List ℕ) (miH : V) (c : ℕ),
      (ctPass1 G Hp rng vs miH c).2 = c + 3 * vs.length := by
  intro vs
  induction vs with
  | nil => intro miH c; simp [ctPass1]
  | cons v vs ih =>
    intro miH c
    simp only [ctPass1, ctStep1, ih, List.length_cons]
    ring

lemma ctPass2_counter (rng : ℕ → ZMod p) (e_0 : ZMod p) :
    ∀ (vs : List ℕ) (rows : List (Row (ZMod p) V)) (miH : V) (c : ℕ),
      (ctPass2 G Hp rng e_0 vs rows miH c).2 = c + 3 * min vs.length rows.length := by
  intro vs
  induction vs with
  | nil => intro rows miH c; simp [ctPass2]
  | cons v vs ih =>
    intro rows miH c
    cases rows with
    | nil => simp [ctPass2]
    | cons row rows =>
      simp only [ctPass2, ctStep2, ih, List.length_cons, Nat.succ_min_succ]
      omega

/-- Inversion of a successful `create_vartime` call. -/
lemma create_vartime_ok_inv {n value : ℕ} {rng : ℕ → ZMod p}
    {pr : RangeProof (ZMod p) V} {com : V} {bl : ZMod p}
    (h : create_vartime G H Hp Hlist n value rng = .ok (some (pr, com, bl))) :
    n ≤ RANGEPROOF_MAX_N ∧
    ((base3_digits value).drop n).any (fun d => d != 0) = false ∧
    (pr, com, bl) = vtResult G H Hp Hlist n value rng := by
  simp only [create_vartime] at h
  split_ifs at h with h1 h2 h3
  · exact absurd h (by simp)
  · refine ⟨Nat.not_lt.mp h1, by simpa using h2, ?_⟩
    simp only [Except.ok.injEq, Option.some.injEq] at h
    exact h.symm

/-- Inversion of a successful `create` call. -/
lemma create_ok_inv {n value : ℕ} {rng : ℕ → ZMod p}
    {pr : RangeProof (ZMod p) V} {com : V} {bl : ZMod p}
    (h : create G H Hp Hlist n value rng = .ok (some (pr, com, bl))) :
    n ≤ RANGEPROOF_MAX_N ∧
    ((base3_digits value).drop n).any (fun d => d != 0) = false ∧
    (pr, com, bl) = ctResult G H Hp Hlist n value rng := by
  simp only [create] at h
  split_ifs at h with h1 h2
  · exact absurd h (by simp)
  · refine ⟨Nat.not_lt.mp h1, by simpa using h2, ?_⟩
    simp only [Except.ok.injEq, Option.some.injEq] at h
    exact h.symm

/-- A `create_vartime` call on an in-bounds, in-range input succeeds with
the rows of `vtResult`. -/
lemma create_vartime_eq_ok (n value : ℕ) (rng : ℕ → ZMod p)
    (hn : ¬ RANGEPROOF_MAX_N < n)
    (hdrop : ((base3_digits value).drop n).any (fun d => d != 0) = false) :
    create_vartime G H Hp Hlist n value rng
      = .ok (some (vtResult G H Hp Hlist n value rng)) := by
  simp only [create_vartime, if_neg hn, hdrop, take_any_gt2_eq_false]
  simp

/-- A `create` call on an in-bounds, in-range input succeeds with the rows
of `ctResult`. -/
lemma create_eq_ok (n value : ℕ) (rng : ℕ → ZMod p)
    (hn : ¬ RANGEPROOF_MAX_N < n)
    (hdrop : ((base3_digits value).drop n).any (fun d => d != 0) = false) :
    create G H Hp Hlist n value rng
      = .ok (some (ctResult G H Hp Hlist n value rng)) := by
  simp only [create, if_neg hn, hdrop]
  simp

lemma vtResult_C_length (n value : ℕ) (rng : ℕ → ZMod p)
    (hn : n ≤ RANGEPROOF_MAX_N) :
    (vtResult G H Hp Hlist n value rng).1.C.length = n := by
  have h41 := base3_digits_length value
  simp only [vtResult, List.length_map, vtPass2_length, vtPass1_length,
    List.length_take, h41]
  have hn41 : n ≤ 41 := hn
  omega

lemma ctResult_C_length (n value : ℕ) (rng : ℕ → ZMod p)
    (hn : n ≤ RANGEPROOF_MAX_N) :
    (ctResult G H Hp Hlist n value rng).1.C.length = n := by
  have h41 := base3_digits_length value
  simp only [ctResult, List.length_map, ctPass2_length, ctPass1_length,
    List.length_take, h41]
  have hn41 : n ≤ 41 := hn
  omega

/-- The aggregated `vtResult` commitment is a Pedersen commitment to the
value, blinded by the aggregated blinding. -/
lemma vtResult_commitment (n value : ℕ) (rng : ℕ → ZMod p)
    (h64 : value < 2 ^ 64)
    (hdrop : ((base3_digits value).drop n).any (fun d => d != 0) = false) :
    (vtResult G H Hp Hlist n value rng).2.1
      = (vtResult G H Hp Hlist n value rng).2.2 • G + ((value : ℕ) : ZMod p) • H := by
  have hzero : ∀ d ∈ (base3_digits value).drop n, d = 0 := by
    rw [List.any_eq_false] at hdrop
    intro d hd
    simpa using hdrop d hd
  have hvs : ∀ d ∈ (base3_digits value).take n, d < 3 :=
    fun d hd => base3_digits_take_lt_three hd
  have h1 : (vtPass1 G Hp rng ((base3_digits value).take n) H 0).1
      = (vtPass1 G Hp rng ((base3_digits value).take n) (((3 : ZMod p) ^ 0) • H) 0).1 := by
    rw [pow_zero, one_smul]
  have h2 : ∀ e_0 c',
      (vtPass2 G Hp rng e_0 ((base3_digits value).take n)
          (vtPass1 G Hp rng ((base3_digits value).take n) H 0).1 H c').1
        = (vtPass2 G Hp rng e_0 ((base3_digits value).take n)
            (vtPass1 G Hp rng ((base3_digits value).take n) (((3 : ZMod p) ^ 0) • H) 0).1
            (((3 : ZMod p) ^ 0) • H) c').1 := by
    intro e_0 c'
    rw [pow_zero, one_smul]
  simp only [vtResult]
  rw [h2]
  rw [vt_rows_sum G H Hp rng _ ((base3_digits value).take n) 0 0 _ _ _ hvs rfl rfl]
  rw [wsum_take_eq hzero, wsum_base3_digits value h64]

/-- The aggregated `ctResult` commitment is a Pedersen commitment to the
value, blinded by the aggregated blinding. -/
lemma ctResult_commitment (n value : ℕ) (rng : ℕ → ZMod p)
    (h64 : value < 2 ^ 64)
    (hdrop : ((base3_digits value).drop n).any (fun d => d != 0) = false) :
    (ctResult G H Hp Hlist n value rng).2.1
      = (ctResult G H Hp Hlist n value rng).2.2 • G + ((value : ℕ) : ZMod p) • H := by
  have hzero : ∀ d ∈ (base3_digits value).drop n, d = 0 := by
    rw [List.any_eq_false] at hdrop
    intro d hd
    simpa using hdrop d hd
  have hvs : ∀ d ∈ (base3_digits value).take n, d < 3 :=
    fun d hd => base3_digits_take_lt_three hd
  have h2 : ∀ e_0 c',
      (ctPass2 G Hp rng e_0 ((base3_digits value).take n)
          (ctPass1 G Hp rng ((base3_digits value).take n) H 0).1 H c').1
        = (ctPass2 G Hp rng e_0 ((base3_digits value).take n)
            (ctPass1 G Hp rng ((base3_digits value).take n) (((3 : ZMod p) ^ 0) • H) 0).1
            (((3 : ZMod p) ^ 0) • H) c').1 := by
    intro e_0 c'
    rw [pow_zero, one_smul]
  simp only [ctResult]
  rw [h2]
  rw [ct_rows_sum G H Hp rng _ ((base3_digits value).take n) 0 0 _ _ _ hvs rfl rfl]
  rw [wsum_take_eq hzero, wsum_base3_digits value h64]

/-- The proof part of `vtResult` is accepted by `verify` at the same `n`,
returning the aggregated commitment. -/
lemma vt_verifies (n value : ℕ) (rng : ℕ → ZMod p) (hn : n ≤ RANGEPROOF_MAX_N)
    (hHp : ∀ P : V, Hp P ≠ 0) :
    verify G H Hp Hlist (vtResult G H Hp Hlist n value rng).1 n
      = .ok (some (vtResult G H Hp Hlist n value rng).2.1) := by
  have hstart : (((3 : ZMod p) ^ 0) • H) = H := by rw [pow_zero, one_smul]
  simp only [verify, vtResult]
  set vs := (base3_digits value).take n with hvs_def
  set rows1 := (vtPass1 G Hp rng vs H 0).1 with hrows1_def
  set c1 := (vtPass1 G Hp rng vs H 0).2 with hc1_def
  set E := Hlist (List.map Row.R rows1) with hE_def
  set rows := (vtPass2 G Hp rng E vs rows1 H c1).1 with hrows_def
  have hvs3 : ∀ d ∈ vs, d < 3 := fun d hd => base3_digits_take_lt_three hd
  obtain ⟨hR, hV⟩ :=
    vt_rows_verify G H Hp rng E hHp vs 0 0 c1 rows1 rows hvs3
      (by rw [hstart]) (by rw [hstart])
  rw [hstart] at hV
  have hlen : rows.length = n := by
    rw [hrows_def, vtPass2_length, hrows1_def, vtPass1_length, hvs_def,
      List.length_take, base3_digits_length]
    have hn41 : n ≤ 41 := hn
    omega
  rw [if_neg (Nat.not_lt.mpr hn)]
  simp only [List.length_map, hlen]
  rw [if_neg (by omega), if_neg (by omega), if_neg (by omega)]
  rw [zip_maps, hV]
  simp [hR]

/-- The proof part of `ctResult` is accepted by `verify` at the same `n`,
returning the aggregated commitment. -/
lemma ct_verifies (n value : ℕ) (rng : ℕ → ZMod p) (hn : n ≤ RANGEPROOF_MAX_N)
    (hHp : ∀ P : V, Hp P ≠ 0) :
    verify G H Hp Hlist (ctResult G H Hp Hlist n value rng).1 n
      = .ok (some (ctResult G H Hp Hlist n value rng).2.1) := by
  have hstart : (((3 : ZMod p) ^ 0) • H) = H := by rw [pow_zero, one_smul]
  simp only [verify, ctResult]
  set vs := (base3_digits value).take n with hvs_def
  set rows1 := (ctPass1 G Hp rng vs H 0).1 with hrows1_def
  set c1 := (ctPass1 G Hp rng vs H 0).2 with hc1_def
  set E := Hlist (List.map Row.R rows1) with hE_def
  set rows := (ctPass2 G Hp rng E vs rows1 H c1).1 with hrows_def
  have hvs3 : ∀ d ∈ vs, d < 3 := fun d hd => base3_digits_take_lt_three hd
  obtain ⟨hR, hV⟩ :=
    ct_rows_verify G H Hp rng E hHp vs 0 0 c1 rows1 rows hvs3
      (by rw [hstart]) (by rw [hstart])
  rw [hstart] at hV
  have hlen : rows.length = n := by
    rw [hrows_def, ctPass2_length, hrows1_def, ctPass1_length, hvs_def,
      List.length_take, base3_digits_length]
    have hn41 : n ≤ 41 := hn
    omega
  rw [if_neg (Nat.not_lt.mpr hn)]
  simp only [List.length_map, hlen]
  rw [if_neg (by omega), if_neg (by omega), if_neg (by omega)]
  rw [zip_maps, hV]
  simp [hR]

end GroupLemmas

/-! The claim theorems. -/

section Claims

variable {p : ℕ} [Fact (Nat.Prime p)] {V : Type} [AddCommGroup V] [Module (ZMod p) V]
variable (G H : V) (Hp : V → ZMod p) (Hlist : List V → ZMod p)

/-- Claim C5: digit decomposer correctness: for every u64 `x`, `base3_digits x`
is an array of exactly 41 digits with `digits[i] = x / 3^i % 3`, each digit
is in `{0,1,2}`, and `Σ_{i<41} digits[i]·3^i = x`.  (The function is total by
construction, so it has no failure mode.) -/
theorem base3_digits_correct (x : ℕ) (hx : x < 2 ^ 64) :
    (base3_digits x).length = 41 ∧
    (∀ i, i < 41 → (base3_digits x).getD i 0 = x / 3 ^ i % 3) ∧
    (∀ i, (base3_digits x).getD i 0 < 3) ∧
    (∑ i ∈ Finset.range 41, (base3_digits x).getD i 0 * 3 ^ i) = x := by
  refine ⟨base3_digits_length x, fun i hi => base3_digits_getD i x hi, ?_, ?_⟩
  · intro i
    by_cases hi : i < 41
    · rw [base3_digits_getD i x hi]
      exact Nat.mod_lt _ (by omega)
    · rw [List.getD_eq_default]
      · omega
      · rw [base3_digits_length]
        omega
  · calc (∑ i ∈ Finset.range 41, (base3_digits x).getD i 0 * 3 ^ i)
        = ∑ i ∈ Finset.range 41, (base3_digits x).getD i 0 * 3 ^ (0 + i) :=
          Finset.sum_congr rfl fun i _ => by rw [Nat.zero_add]
      _ = wsum 0 (base3_digits x) := by rw [wsum_eq_sum_range, base3_digits_length]
      _ = x := wsum_base3_digits x hx

/-- Witness for C5, at the first published sage vector: the 41 digits of
`10352669767914021650` resum to the input. -/
theorem base3_digits_correct_witness :
    (∑ i ∈ Finset.range 41, (base3_digits 10352669767914021650).getD i 0 * 3 ^ i)
      = 10352669767914021650 :=
  (base3_digits_correct 10352669767914021650 (by decide)).2.2.2

/-- Claim C10: implicit safety of the digit dispatch: every digit produced by
`base3_digits` is `< 3` (so the per-digit `debug_assert!`s of
`RangeProof::create` hold), and the pre-loop check of `create_vartime` that
models the `panic!("Invalid digit")` arm is `false` on every input, i.e. the
panic arm is unreachable. -/
theorem digit_dispatch_safe :
    ∀ (x n i : ℕ),
      ((base3_digits x).take n).any (fun d => decide (2 < d)) = false ∧
      (base3_digits x).getD i 0 < 3 := by
  intro x n i
  refine ⟨take_any_gt2_eq_false x n, ?_⟩
  by_cases hi : i < 41
  · rw [base3_digits_getD i x hi]
    exact Nat.mod_lt _ (by omega)
  · rw [List.getD_eq_default]
    · omega
    · rw [base3_digits_length]
      omega

/-- Claim C8: powers-of-3 invariant: the running point `mi_H`, maintained
solely by the iterative-tripling updates of the loops (`mi_H + mi2_H` in the
verifier and the second prover passes, `mi2_H + mi_H` in the first prover
passes, with `2m_i` realized as `mi_H + mi_H`), equals `3^i • H` at the start
of iteration `i`; consequently the verifier loop at start point `3^i • H`
computes exactly the fresh-scalar-multiplication formulation `specRs` of the
ring equations. -/
theorem mi_H_is_pow_three :
    ∀ i : ℕ,
      miH_seq H i = ((3 : ZMod p) ^ i) • H ∧
      miH_seqP H i = ((3 : ZMod p) ^ i) • H ∧
      (∀ (e_0 : ZMod p) (tys : List (V × ZMod p × ZMod p)),
        (verifyDigits G Hp e_0 tys (miH_seq H i)).1 = specRs G H Hp e_0 i tys) := by
  intro i
  have h : miH_seq H i = ((3 : ZMod p) ^ i) • H ∧ miH_seqP H i = ((3 : ZMod p) ^ i) • H := by
    induction i with
    | zero => constructor <;> simp [miH_seq, miH_seqP]
    | succ j ih =>
      constructor
      · rw [miH_seq, ih.1, ← pow_triple]
      · rw [miH_seqP, ih.2, ← pow_tripleP]
  refine ⟨h.1, h.2, fun e_0 tys => ?_⟩
  rw [h.1]
  exact verifyDigits_fst_eq_specRs G H Hp e_0 tys i

/-- Witness for C8 at the concrete model, `i = 3`. -/
theorem mi_H_is_pow_three_witness :
    miH_seq exH 3 = ((3 : S5) ^ 3) • exH ∧
    miH_seqP exH 3 = ((3 : S5) ^ 3) • exH ∧
    (∀ (e_0 : S5) (tys : List (V5 × S5 × S5)),
      (verifyDigits exG exHp e_0 tys (miH_seq exH 3)).1 = specRs exG exH exHp e_0 3 tys) :=
  mi_H_is_pow_three exG exH exHp 3

/-- Claim C9: uniform CSPRNG consumption of the constant-time prover: the
first pass of `RangeProof::create` advances the CSPRNG counter by exactly 3
per digit position (`k[i]`, `maybe_ri`, `maybe_s2`) and the second pass by
exactly 3 per digit position (`maybe_k1`, `maybe_k2`, the random
`maybe_s_1`), irrespective of the digit values; hence two runs over the same
number of digit positions — in particular two valid values with the same `n`
— consume the same number of draws, `6n` in total. -/
theorem create_ct_uniform_draws (rng : ℕ → ZMod p) (e_0 : ZMod p) :
    ∀ (vs : List ℕ) (rows : List (Row (ZMod p) V)) (miH : V) (c : ℕ),
      (ctPass1 G Hp rng vs miH c).2 = c + 3 * vs.length ∧
      (ctPass2 G Hp rng e_0 vs rows miH c).2 = c + 3 * min vs.length rows.length :=
  fun vs rows miH c =>
    ⟨ctPass1_counter G Hp rng vs miH c, ctPass2_counter G Hp rng e_0 vs rows miH c⟩

/-- Claim C1, counterexample: the claim includes the boundary: it asserts that
for `n = 10` and `value = 3^10 = 59049` both provers return `Some`.  In fact
`base3_digits 59049` has digit `1` at index `10`, so the in-range check
of src/lib.rs:341 fails and both provers
return `None` at the boundary value `3^n`. -/
theorem completeness_boundary_counterexample :
    create_vartime exG exH exHp exHlist 10 59049 exRng = .ok none ∧
    create exG exH exHp exHlist 10 59049 exRng = .ok none := ⟨rfl, rfl⟩

/-- Claim C1, amended: completeness on the half-open interval: for every
`n ≤ 41` and every `value < 3^n`, both `create_vartime` and `create` return
`Some (proof, commitment, blinding)`, and `verify` with the same `n`, `G`,
`H` accepts the proof, returning exactly the commitment.  (As everywhere in
this development, the point hash is assumed never to produce the zero
scalar; in the source that failure has probability about `2^-250` per digit
and would make `e_2.invert()` divide by zero.) -/
theorem completeness_in_range (n value : ℕ) (rng rng' : ℕ → ZMod p)
    (hn : n ≤ RANGEPROOF_MAX_N) (hv : value < 3 ^ n) (hHp : ∀ P : V, Hp P ≠ 0) :
    (∃ pr com bl,
      create_vartime G H Hp Hlist n value rng = .ok (some (pr, com, bl)) ∧
      verify G H Hp Hlist pr n = .ok (some com)) ∧
    (∃ pr com bl,
      create G H Hp Hlist n value rng' = .ok (some (pr, com, bl)) ∧
      verify G H Hp Hlist pr n = .ok (some com)) := by
  have hn41 : n ≤ 41 := hn
  have hdrop := drop_any_ne_eq_false hn41 hv
  constructor
  · exact ⟨(vtResult G H Hp Hlist n value rng).1,
      (vtResult G H Hp Hlist n value rng).2.1,
      (vtResult G H Hp Hlist n value rng).2.2,
      by rw [create_vartime_eq_ok G H Hp Hlist n value rng (Nat.not_lt.mpr hn) hdrop],
      vt_verifies G H Hp Hlist n value rng hn hHp⟩
  · exact ⟨(ctResult G H Hp Hlist n value rng').1,
      (ctResult G H Hp Hlist n value rng').2.1,
      (ctResult G H Hp Hlist n value rng').2.2,
      by rw [create_eq_ok G H Hp Hlist n value rng' (Nat.not_lt.mpr hn) hdrop],
      ct_verifies G H Hp Hlist n value rng' hn hHp⟩

/-- Witness for the amended C1 at the concrete model, `n = 1`, `value = 1`. -/
theorem completeness_in_range_witness :
    (∃ pr com bl,
      create_vartime exG exH exHp exHlist 1 1 exRng = .ok (some (pr, com, bl)) ∧
      verify exG exH exHp exHlist pr 1 = .ok (some com)) ∧
    (∃ pr com bl,
      create exG exH exHp exHlist 1 1 exRng = .ok (some (pr, com, bl)) ∧
      verify exG exH exHp exHlist pr 1 = .ok (some com)) :=
  completeness_in_range exG exH exHp exHlist 1 1 exRng exRng
    (by decide) (by decide) (by decide)

/-- Claim C2: full behaviour of `RangeProof::verify` for `n ≤ 41`: if any of
the three component lengths differs from `n` the result is `None`
(malformed); otherwise the verifier recomputes `ê_0` by hashing the `R^i`
of the per-digit ring equations (`specRs`, with fresh `m_i = 3^i • H`) and
returns `Some (C^0 + ... + C^{n-1})` exactly when `ê_0` equals the stored
`e_0`, and `None` otherwise. -/
theorem verify_behaviour (pf : RangeProof (ZMod p) V) (n : ℕ)
    (hn : n ≤ RANGEPROOF_MAX_N) :
    ((pf.C.length = n ∧ pf.s_1.length = n ∧ pf.s_2.length = n) →
      verify G H Hp Hlist pf n
        = .ok (if Hlist (specRs G H Hp pf.e_0 0 (pf.C.zip (pf.s_1.zip pf.s_2))) = pf.e_0
               then some pf.C.sum else none)) ∧
    (¬(pf.C.length = n ∧ pf.s_1.length = n ∧ pf.s_2.length = n) →
      verify G H Hp Hlist pf n = .ok none) := by
  constructor
  · rintro ⟨h1, h2, h3⟩
    simp only [verify, if_neg (Nat.not_lt.mpr hn)]
    rw [if_neg (by omega), if_neg (by omega), if_neg (by omega)]
    have hfst := verifyDigits_fst_eq_specRs G H Hp pf.e_0 (pf.C.zip (pf.s_1.zip pf.s_2)) 0
    rw [pow_zero, one_smul] at hfst
    have hsnd := verifyDigits_snd G Hp pf.e_0 (pf.C.zip (pf.s_1.zip pf.s_2)) H
    have hmapfst : (pf.C.zip (pf.s_1.zip pf.s_2)).map Prod.fst = pf.C :=
      List.map_fst_zip _ _ (by rw [List.length_zip]; omega)
    rw [hmapfst] at hsnd
    rw [hfst, hsnd, apply_ite Except.ok]
  · intro hne
    simp only [verify, if_neg (Nat.not_lt.mpr hn)]
    by_cases h1 : pf.C.length ≠ n
    · rw [if_pos h1]
    · by_cases h2 : pf.s_1.length ≠ n
      · rw [if_neg h1, if_pos h2]
      · have h3 : pf.s_2.length ≠ n := by tauto
        rw [if_neg h1, if_neg h2, if_pos h3]

/-- Witness for C2 at the concrete model: the empty proof at `n = 0`. -/
theorem verify_behaviour_witness :
    verify exG exH exHp exHlist (⟨0, [], [], []⟩ : RangeProof S5 V5) 0
      = .ok (if exHlist (specRs exG exH exHp (0 : S5) 0
              (([] : List V5).zip (([] : List S5).zip ([] : List S5)))) = (0 : S5)
             then some (List.sum ([] : List V5)) else none) :=
  (verify_behaviour exG exH exHp exHlist ⟨0, [], [], []⟩ 0 (by decide)).1
    (by exact ⟨rfl, rfl, rfl⟩)

/-- Claim C3: commitment consistency: whenever either prover returns
`Some (proof, commitment, blinding)` for a u64 `value`, the returned
commitment equals `blinding • G + value • H` — the blinding being `Σ r_i`
and the commitment `Σ C_i` over the per-digit rows. -/
theorem commitment_consistency (n value : ℕ) (rng rng' : ℕ → ZMod p)
    (pr pr' : RangeProof (ZMod p) V) (com com' : V) (bl bl' : ZMod p)
    (h64 : value < 2 ^ 64) :
    (create_vartime G H Hp Hlist n value rng = .ok (some (pr, com, bl)) →
      com = bl • G + ((value : ℕ) : ZMod p) • H) ∧
    (create G H Hp Hlist n value rng' = .ok (some (pr', com', bl')) →
      com' = bl' • G + ((value : ℕ) : ZMod p) • H) := by
  constructor
  · intro h
    obtain ⟨hn, hdrop, heq⟩ := create_vartime_ok_inv G H Hp Hlist h
    have hcom : com = (vtResult G H Hp Hlist n value rng).2.1 := by rw [← heq]
    have hbl : bl = (vtResult G H Hp Hlist n value rng).2.2 := by rw [← heq]
    rw [hcom, hbl]
    exact vtResult_commitment G H Hp Hlist n value rng h64 hdrop
  · intro h
    obtain ⟨hn, hdrop, heq⟩ := create_ok_inv G H Hp Hlist h
    have hcom : com' = (ctResult G H Hp Hlist n value rng').2.1 := by rw [← heq]
    have hbl : bl' = (ctResult G H Hp Hlist n value rng').2.2 := by rw [← heq]
    rw [hcom, hbl]
    exact ctResult_commitment G H Hp Hlist n value rng' h64 hdrop

/-- Witness for C3 at the concrete model. -/
theorem commitment_consistency_witness :
    (create_vartime exG exH exHp exHlist 1 1 exRng
        = .ok (some (⟨0, [], [], []⟩, (0 : V5), (0 : S5))) →
      (0 : V5) = (0 : S5) • exG + ((1 : ℕ) : S5) • exH) ∧
    (create exG exH exHp exHlist 1 1 exRng
        = .ok (some (⟨0, [], [], []⟩, (0 : V5), (0 : S5))) →
      (0 : V5) = (0 : S5) • exG + ((1 : ℕ) : S5) • exH) :=
  commitment_consistency exG exH exHp exHlist 1 1 exRng exRng
    ⟨0, [], [], []⟩ ⟨0, [], [], []⟩ 0 0 0 0 (by decide)

/-- Claim C4: out-of-range refusal: for every `n ≤ 41` and every u64
`value ≥ 3^n` — equivalently, with a nonzero base-3 digit at some index in
`[n, 41)` — both provers return `None`. -/
theorem out_of_range_refusal (n value : ℕ) (rng rng' : ℕ → ZMod p)
    (hn : n ≤ RANGEPROOF_MAX_N) (h64 : value < 2 ^ 64) (hge : 3 ^ n ≤ value) :
    create_vartime G H Hp Hlist n value rng = .ok none ∧
    create G H Hp Hlist n value rng' = .ok none := by
  have hn41 : n ≤ 41 := hn
  have hany : ((base3_digits value).drop n).any (fun d => d != 0) = true := by
    cases hb : ((base3_digits value).drop n).any (fun d => d != 0) with
    | false =>
      have := lt_of_drop_any_ne_eq_false hn41 h64 hb
      omega
    | true => rfl
  have hn' : ¬ RANGEPROOF_MAX_N < n := Nat.not_lt.mpr hn
  constructor
  · simp [create_vartime, if_neg hn', hany]
  · simp [create, if_neg hn', hany]

/-- Witness for C4 at the concrete model: `n = 1`, `value = 5 ≥ 3`. -/
theorem out_of_range_refusal_witness :
    create_vartime exG exH exHp exHlist 1 5 exRng = .ok none ∧
    create exG exH exHp exHlist 1 5 exRng = .ok none :=
  out_of_range_refusal exG exH exHp exHlist 1 5 exRng exRng
    (by decide) (by decide) (by decide)

/-- Claim C6: BoundTooLarge is the only abnormal halt, and it fires exactly on
`n > 41`: each of `create_vartime`, `create` and `verify` panics (modelled
as `Except.error`) if and only if `n > RANGEPROOF_MAX_N = 41`; for `n ≤ 41`
all three return normally with an `Option` value.  (The `"Invalid digit"`
panic of `create_vartime` never fires, since every digit of `base3_digits`
is `< 3`.) -/
theorem bound_too_large_panics (n value : ℕ) (rng rng' : ℕ → ZMod p)
    (pf : RangeProof (ZMod p) V) :
    (create_vartime G H Hp Hlist n value rng = .error () ↔ RANGEPROOF_MAX_N < n) ∧
    (create G H Hp Hlist n value rng' = .error () ↔ RANGEPROOF_MAX_N < n) ∧
    (verify G H Hp Hlist pf n = .error () ↔ RANGEPROOF_MAX_N < n) := by
  refine ⟨?_, ?_, ?_⟩
  · by_cases h : RANGEPROOF_MAX_N < n
    · simp [create_vartime, h]
    · refine ⟨fun hcontra => ?_, fun hlt => absurd hlt h⟩
      cases hb : ((base3_digits value).drop n).any (fun d => d != 0) with
      | false =>
        rw [create_vartime_eq_ok G H Hp Hlist n value rng h hb] at hcontra
        exact absurd hcontra (by simp)
      | true =>
        have hok : create_vartime G H Hp Hlist n value rng = .ok none := by
          simp [create_vartime, if_neg h, hb]
        rw [hok] at hcontra
        exact absurd hcontra (by simp)
  · by_cases h : RANGEPROOF_MAX_N < n
    · simp [create, h]
    · refine ⟨fun hcontra => ?_, fun hlt => absurd hlt h⟩
      cases hb : ((base3_digits value).drop n).any (fun d => d != 0) with
      | false =>
        rw [create_eq_ok G H Hp Hlist n value rng' h hb] at hcontra
        exact absurd hcontra (by simp)
      | true =>
        have hok : create G H Hp Hlist n value rng' = .ok none := by
          simp [create, if_neg h, hb]
        rw [hok] at hcontra
        exact absurd hcontra (by simp)
  · by_cases h : RANGEPROOF_MAX_N < n
    · simp [verify, h]
    · refine ⟨fun hcontra => ?_, fun hlt => absurd hlt h⟩
      revert hcontra
      simp only [verify, if_neg h]
      split_ifs <;> simp

/-- Witness for C6 at the concrete model, `n = 42`. -/
theorem bound_too_large_panics_witness :
    (create_vartime exG exH exHp exHlist 42 0 exRng = .error ()
        ↔ RANGEPROOF_MAX_N < 42) ∧
    (create exG exH exHp exHlist 42 0 exRng = .error ()
        ↔ RANGEPROOF_MAX_N < 42) ∧
    (verify exG exH exHp exHlist (⟨0, [], [], []⟩ : RangeProof S5 V5) 42 = .error ()
        ↔ RANGEPROOF_MAX_N < 42) :=
  bound_too_large_panics exG exH exHp exHlist 42 0 exRng exRng ⟨0, [], [], []⟩

/-- Claim C7, counterexample: the claim quantifies over every `n' ≠ n`, but
for `n' > 41` the verifier does not return `None`: it panics.  Concretely, a
proof produced by `create_vartime` with bound `n = 0` makes `verify` at
`n' = 42` halt abnormally (`Except.error`), not reject. -/
theorem wrong_n_counterexample :
    create_vartime exG exH exHp exHlist 0 0 exRng
      = .ok (some (⟨exHlist [], [], [], []⟩, (0 : V5), (0 : S5))) ∧
    verify exG exH exHp exHlist (⟨exHlist [], [], [], []⟩ : RangeProof S5 V5) 42
      = .error () := ⟨rfl, rfl⟩

/-- Claim C7, amended: wrong-n rejection for in-bounds `n'`: a proof produced
by either prover with bound `n` is rejected — deterministically, via the
length check — by `verify` with any `n' ≤ 41`, `n' ≠ n`; for `n' > 41` the
verifier panics instead (see C6). -/
theorem wrong_n_rejected (n n' value : ℕ) (rng rng' : ℕ → ZMod p)
    (pr pr' : RangeProof (ZMod p) V) (com com' : V) (bl bl' : ZMod p)
    (hn' : n' ≤ RANGEPROOF_MAX_N) (hne : n' ≠ n) :
    (create_vartime G H Hp Hlist n value rng = .ok (some (pr, com, bl)) →
      verify G H Hp Hlist pr n' = .ok none) ∧
    (create G H Hp Hlist n value rng' = .ok (some (pr', com', bl')) →
      verify G H Hp Hlist pr' n' = .ok none) := by
  constructor
  · intro h
    obtain ⟨hn, hdrop, heq⟩ := create_vartime_ok_inv G H Hp Hlist h
    have hC : pr.C.length = n := by
      have hlen := vtResult_C_length G H Hp Hlist n value rng hn
      have hpr : pr = (vtResult G H Hp Hlist n value rng).1 := by rw [← heq]
      rw [hpr]
      exact hlen
    simp only [verify, if_neg (Nat.not_lt.mpr hn')]
    rw [if_pos (by rw [hC]; omega : pr.C.length ≠ n')]
  · intro h
    obtain ⟨hn, hdrop, heq⟩ := create_ok_inv G H Hp Hlist h
    have hC : pr'.C.length = n := by
      have hlen := ctResult_C_length G H Hp Hlist n value rng' hn
      have hpr : pr' = (ctResult G H Hp Hlist n value rng').1 := by rw [← heq]
      rw [hpr]
      exact hlen
    simp only [verify, if_neg (Nat.not_lt.mpr hn')]
    rw [if_pos (by rw [hC]; omega : pr'.C.length ≠ n')]

/-- Witness for the amended C7 at the concrete model: `n = 1`, `n' = 2`. -/
theorem wrong_n_rejected_witness :
    (create_vartime exG exH exHp exHlist 1 1 exRng
        = .ok (some (⟨0, [], [], []⟩, (0 : V5), (0 : S5))) →
      verify exG exH exHp exHlist (⟨0, [], [], []⟩ : RangeProof S5 V5) 2 = .ok none) ∧
    (create exG exH exHp exHlist 1 1 exRng
        = .ok (some (⟨0, [], [], []⟩, (0 : V5), (0 : S5))) →
      verify exG exH exHp exHlist (⟨0, [], [], []⟩ : RangeProof S5 V5) 2 = .ok none) :=
  wrong_n_rejected exG exH exHp exHlist 1 2 1 exRng exRng
    ⟨0, [], [], []⟩ ⟨0, [], [], []⟩ 0 0 0 0 (by decide) (by decide)

/-- Witness for C9 at the concrete model: three digit positions, digits
`[0, 1, 2]`, consume `3 · 3` draws in the first pass. -/
theorem create_ct_uniform_draws_witness :
    (ctPass1 exG exHp exRng [0, 1, 2] exH 0).2 = 0 + 3 * [0, 1, 2].length ∧
    (ctPass2 exG exHp exRng 0 [0, 1, 2] [] exH 0).2
      = 0 + 3 * min [0, 1, 2].length ([] : List (Row S5 V5)).length :=
  create_ct_uniform_draws exG exHp exRng 0 [0, 1, 2] [] exH 0

end Claims

end DalekRangeproofs
